import Mathlib

/-!
Verification of the option-pricing core of the `optionpricing` repository.

The Python source under `src/optionpricing` is shallowly embedded below:
pure numerical routines become Lean functions over `ℝ`, the pydantic
validation of the `Option` contract becomes an `Except`-valued smart
constructor, the NumPy random generator is modelled by explicit state
passing, and `scipy.stats.norm.cdf` is modelled by the mathematical
standard normal cumulative distribution function (an integral of the
Gaussian density).
-/

open MeasureTheory Set

namespace OptionPricing

/-- `OptionType` enumeration from `models/base.py`. -/
inductive OptionType
  | call
  | put
deriving DecidableEq

/-- `ExerciseStyle` enumeration from `models/base.py`. -/
inductive ExerciseStyle
  | european
  | american
deriving DecidableEq

/-- The pydantic `Option` model from `models/base.py` (named `OptionContract`
here because Lean core already has an `Option` type).  Python floats are
modelled as reals. -/
structure OptionContract where
  spot_price : ℝ
  strike_price : ℝ
  time_to_expiry : ℝ
  volatility : ℝ
  risk_free_rate : ℝ
  option_type : OptionType
  exercise_style : ExerciseStyle
  dividend_yield : ℝ

/-- Pydantic validation of `Option` from `models/base.py`: `spot_price`,
`strike_price`, `time_to_expiry`, `volatility` all carry `Field(gt=0)`,
`dividend_yield` carries `Field(ge=0)`, `risk_free_rate` is unconstrained,
and `validate_time_to_expiry` re-checks `time_to_expiry > 0`.  Construction
is the only way a contract comes into existence in the source, so the
embedding routes all construction through this function. -/
noncomputable def mkOption (spot strike t vol rate : ℝ) (oty : OptionType)
    (ex : ExerciseStyle) (q : ℝ) : Except String OptionContract :=
  if spot ≤ 0 then .error "spot_price must be greater than 0"
  else if strike ≤ 0 then .error "strike_price must be greater than 0"
  else if t ≤ 0 then .error "Time to expiry must be positive"
  else if vol ≤ 0 then .error "volatility must be greater than 0"
  else if q < 0 then .error "dividend_yield must be greater than or equal to 0"
  else .ok ⟨spot, strike, t, vol, rate, oty, ex, q⟩

/-- `BlackScholesModel.__init__` from `models/black_scholes.py`: rejects any
contract whose exercise style is not European with an `InvalidOptionError`,
before any pricing is performed. -/
noncomputable def mkBlackScholes (o : OptionContract) : Except String OptionContract :=
  if o.exercise_style ≠ ExerciseStyle.european then
    .error "Black-Scholes model only supports European options."
  else .ok o

/-! ### The standard normal distribution (model of `scipy.stats.norm`) -/

/-- Standard normal probability density, the model of `scipy.stats.norm.pdf`
used in `black_scholes.py`. -/
noncomputable def normalPDF : ℝ → ℝ := ProbabilityTheory.gaussianPDFReal 0 1

/-- Standard normal cumulative distribution function, the model of
`scipy.stats.norm.cdf` used in `black_scholes.py`. -/
noncomputable def normalCDF (x : ℝ) : ℝ := ∫ t in Iic x, normalPDF t

lemma normalPDF_pos (x : ℝ) : 0 < normalPDF x :=
  ProbabilityTheory.gaussianPDFReal_pos 0 1 x one_ne_zero

lemma normalPDF_neg (x : ℝ) : normalPDF (-x) = normalPDF x := by
  simp [normalPDF, ProbabilityTheory.gaussianPDFReal, neg_sq]

lemma integrable_normalPDF : Integrable normalPDF :=
  ProbabilityTheory.integrable_gaussianPDFReal 0 1

lemma integral_normalPDF : ∫ x, normalPDF x = 1 :=
  ProbabilityTheory.integral_gaussianPDFReal_eq_one 0 one_ne_zero

lemma normalCDF_add_neg (x : ℝ) : normalCDF x + normalCDF (-x) = 1 := by
  have h1 : normalCDF (-x) = ∫ t in Ioi x, normalPDF t := by
    have h2 : (∫ t in Iic (-x), normalPDF t) = ∫ t in Iic (-x), normalPDF (-t) :=
      setIntegral_congr_fun measurableSet_Iic fun t _ => (normalPDF_neg t).symm
    rw [normalCDF, h2, integral_comp_neg_Iic, neg_neg]
  rw [normalCDF, h1,
    intervalIntegral.integral_Iic_add_Ioi integrable_normalPDF.integrableOn
      integrable_normalPDF.integrableOn,
    integral_normalPDF]

lemma normalCDF_pos (x : ℝ) : 0 < normalCDF x := by
  rw [normalCDF,
    setIntegral_pos_iff_support_of_nonneg_ae
      (Filter.Eventually.of_forall fun t => (normalPDF_pos t).le)
      integrable_normalPDF.integrableOn]
  have hs : Function.support normalPDF = univ :=
    Set.eq_univ_of_forall fun t => Function.mem_support.mpr (normalPDF_pos t).ne'
  rw [hs, univ_inter, Real.volume_Iic]
  exact ENNReal.zero_lt_top

lemma normalCDF_lt_one (x : ℝ) : normalCDF x < 1 := by
  have h := normalCDF_add_neg x
  have h2 := normalCDF_pos (-x)
  linarith

lemma normalCDF_nonneg (x : ℝ) : 0 ≤ normalCDF x := (normalCDF_pos x).le

lemma normalCDF_mono : Monotone normalCDF := fun _ _ hxy =>
  setIntegral_mono_set integrable_normalPDF.integrableOn
    (Filter.Eventually.of_forall fun t => (normalPDF_pos t).le)
    (HasSubset.Subset.eventuallyLE (Iic_subset_Iic.mpr hxy))

lemma normalCDF_zero : normalCDF 0 = 1 / 2 := by
  have h := normalCDF_add_neg 0
  rw [neg_zero] at h
  linarith

lemma continuous_normalCDF : Continuous normalCDF := by
  have h : ∀ y : ℝ, normalCDF y = normalCDF 0 + ∫ t in (0:ℝ)..y, normalPDF t := by
    intro y
    have h2 := intervalIntegral.integral_Iic_sub_Iic (μ := volume) (f := normalPDF)
      (a := 0) (b := y) integrable_normalPDF.integrableOn integrable_normalPDF.integrableOn
    rw [normalCDF, normalCDF]
    linarith [h2]
  have h3 : Continuous fun y : ℝ => normalCDF 0 + ∫ t in (0:ℝ)..y, normalPDF t :=
    continuous_const.add (integrable_normalPDF.continuous_primitive 0)
  exact (funext h ▸ h3)

lemma tendsto_normalCDF_atTop : Filter.Tendsto normalCDF Filter.atTop (nhds 1) := by
  have h := tendsto_setIntegral_of_monotone (μ := volume) (f := normalPDF)
    (s := fun x : ℝ => Iic x) (fun _ => measurableSet_Iic)
    (fun a b hab => Iic_subset_Iic.mpr hab)
    (by rw [iUnion_Iic]; exact integrable_normalPDF.integrableOn)
  rw [iUnion_Iic] at h
  simpa [normalCDF, integral_normalPDF] using h

/-- Model of `scipy.stats.norm.ppf` (the standard normal quantile function)
used by `MonteCarloModel.get_confidence_interval` in `models/monte_carlo.py`:
the inverse of the standard normal CDF. -/
noncomputable def normPPF (p : ℝ) : ℝ := Function.invFun normalCDF p

lemma exists_normalCDF_eq {p : ℝ} (hp1 : 1 / 2 ≤ p) (hp2 : p < 1) :
    ∃ x, normalCDF x = p := by
  have hev : ∀ᶠ b in Filter.atTop, p < normalCDF b :=
    tendsto_normalCDF_atTop.eventually (eventually_gt_nhds hp2)
  obtain ⟨b, hb, hb0⟩ := (hev.and (Filter.eventually_ge_atTop (0:ℝ))).exists
  have hmem : p ∈ Icc (normalCDF 0) (normalCDF b) := ⟨normalCDF_zero ▸ hp1, hb.le⟩
  obtain ⟨x, _, hx⟩ := intermediate_value_Icc hb0 continuous_normalCDF.continuousOn hmem
  exact ⟨x, hx⟩

lemma normPPF_pos {p : ℝ} (hp1 : 1 / 2 < p) (hp2 : p < 1) : 0 < normPPF p := by
  have heq : normalCDF (normPPF p) = p := Function.invFun_eq (exists_normalCDF_eq hp1.le hp2)
  by_contra h
  push_neg at h
  have h2 : normalCDF (normPPF p) ≤ normalCDF 0 := normalCDF_mono h
  rw [heq, normalCDF_zero] at h2
  linarith

/-! ### Black-Scholes engine (`models/black_scholes.py`) -/

/-- `d1` from `BlackScholesModel._calculate_d1_d2`. -/
noncomputable def d1 (o : OptionContract) : ℝ :=
  (Real.log (o.spot_price / o.strike_price) +
      (o.risk_free_rate - o.dividend_yield + 0.5 * o.volatility ^ 2) * o.time_to_expiry) /
    (o.volatility * Real.sqrt o.time_to_expiry)

/-- `d2` from `BlackScholesModel._calculate_d1_d2`. -/
noncomputable def d2 (o : OptionContract) : ℝ :=
  d1 o - o.volatility * Real.sqrt o.time_to_expiry

/-- `BlackScholesModel.price`. -/
noncomputable def bsPrice (o : OptionContract) : ℝ :=
  let pvS := o.spot_price * Real.exp (-o.dividend_yield * o.time_to_expiry)
  let pvK := o.strike_price * Real.exp (-o.risk_free_rate * o.time_to_expiry)
  match o.option_type with
  | .call => pvS * normalCDF (d1 o) - pvK * normalCDF (d2 o)
  | .put => pvK * normalCDF (-d2 o) - pvS * normalCDF (-d1 o)

/-- `BlackScholesModel.delta`. -/
noncomputable def bsDelta (o : OptionContract) : ℝ :=
  let discount := Real.exp (-o.dividend_yield * o.time_to_expiry)
  match o.option_type with
  | .call => discount * normalCDF (d1 o)
  | .put => -discount * normalCDF (-d1 o)

/-- `BlackScholesModel.gamma` (no branch on the option type in the source). -/
noncomputable def bsGamma (o : OptionContract) : ℝ :=
  Real.exp (-o.dividend_yield * o.time_to_expiry) * normalPDF (d1 o) /
    (o.spot_price * o.volatility * Real.sqrt o.time_to_expiry)

/-- `BlackScholesModel.theta` (per calendar day, `CALENDAR_DAYS_PER_YEAR = 365`). -/
noncomputable def bsTheta (o : OptionContract) : ℝ :=
  let sqrtT := Real.sqrt o.time_to_expiry
  let term1 := -(o.spot_price * o.volatility * Real.exp (-o.dividend_yield * o.time_to_expiry) *
    normalPDF (d1 o)) / (2 * sqrtT)
  let thetaPerYear :=
    match o.option_type with
    | .call => term1 +
        o.dividend_yield * o.spot_price * Real.exp (-o.dividend_yield * o.time_to_expiry) *
          normalCDF (d1 o) +
        -(o.risk_free_rate * o.strike_price * Real.exp (-o.risk_free_rate * o.time_to_expiry) *
          normalCDF (d2 o))
    | .put => term1 +
        -(o.dividend_yield * o.spot_price * Real.exp (-o.dividend_yield * o.time_to_expiry) *
          normalCDF (-d1 o)) +
        o.risk_free_rate * o.strike_price * Real.exp (-o.risk_free_rate * o.time_to_expiry) *
          normalCDF (-d2 o)
  thetaPerYear / 365

/-- `BlackScholesModel.vega` (no branch on the option type in the source). -/
noncomputable def bsVega (o : OptionContract) : ℝ :=
  o.spot_price * Real.exp (-o.dividend_yield * o.time_to_expiry) *
    Real.sqrt o.time_to_expiry * normalPDF (d1 o) / 100

/-- `BlackScholesModel.rho`. -/
noncomputable def bsRho (o : OptionContract) : ℝ :=
  let pvK := o.strike_price * Real.exp (-o.risk_free_rate * o.time_to_expiry)
  match o.option_type with
  | .call => pvK * o.time_to_expiry * normalCDF (d2 o) / 100
  | .put => -(pvK * o.time_to_expiry * normalCDF (-d2 o)) / 100

/-! ### Binomial tree engine (`models/binomial.py`)

The source builds the recombining stock lattice `stock_tree[i, j] = S·u^j·d^(i-j)`
and backward-inducts an `option_tree` array over it.  Since the children of node
`(i, j)` are `(i+1, j+1)` (stock `s·u`) and `(i+1, j)` (stock `s·d`), the array
entry `option_tree[i, j]` is exactly `binomValue ... (N - i) stock_tree[i, j]`
below: the value of a node is a function of its stock price and of the number of
steps remaining to maturity. -/

/-- `BinomialTreeModel._get_payoff` (also `MonteCarloModel._calculate_payoffs`
applied elementwise): payoff `max(S-K, 0)` for calls, `max(K-S, 0)` for puts. -/
noncomputable def payoff (oty : OptionType) (K s : ℝ) : ℝ :=
  match oty with
  | .call => max (s - K) 0
  | .put => max (K - s) 0

/-- Backward induction of `BinomialTreeModel.price`, expressed as a recursion on
the number of steps remaining (see the section comment for the correspondence
with the `option_tree` array). -/
noncomputable def binomValue (oty : OptionType) (ex : ExerciseStyle) (K u d p disc : ℝ) :
    ℕ → ℝ → ℝ
  | 0, s => payoff oty K s
  | k + 1, s =>
    let hold := disc * (p * binomValue oty ex K u d p disc k (s * u) +
      (1 - p) * binomValue oty ex K u d p disc k (s * d))
    match ex with
    | .american => max hold (payoff oty K s)
    | .european => hold

/-- CRR up factor `u = e^(σ√(T/N))` from `BinomialTreeModel._build_stock_tree`. -/
noncomputable def crrU (o : OptionContract) (n : ℕ) : ℝ :=
  Real.exp (o.volatility * Real.sqrt (o.time_to_expiry / n))

/-- CRR down factor `d = 1/u`. -/
noncomputable def crrD (o : OptionContract) (n : ℕ) : ℝ := 1 / crrU o n

/-- Risk-neutral up-probability `p = (e^((r-q)·dt) - d)/(u - d)` from
`BinomialTreeModel._calculate_risk_neutral_probability`. -/
noncomputable def crrP (o : OptionContract) (n : ℕ) : ℝ :=
  (Real.exp ((o.risk_free_rate - o.dividend_yield) * (o.time_to_expiry / n)) - crrD o n) /
    (crrU o n - crrD o n)

/-- Per-step discount `e^(-r·dt)` from `BinomialTreeModel.price`. -/
noncomputable def crrDisc (o : OptionContract) (n : ℕ) : ℝ :=
  Real.exp (-o.risk_free_rate * (o.time_to_expiry / n))

/-- `BinomialTreeModel.price` with `num_steps = n`. -/
noncomputable def binomialPrice (o : OptionContract) (n : ℕ) : ℝ :=
  binomValue o.option_type o.exercise_style o.strike_price
    (crrU o n) (crrD o n) (crrP o n) (crrDisc o n) n o.spot_price

/-! ### Monte Carlo engine (`models/monte_carlo.py`)

The NumPy generator is modelled by explicit state passing: `np.random.seed`
resets the state from the seed, `np.random.standard_normal(n)` consumes the
state and yields `n` draws plus the next state.  A simulation run is then a
deterministic function of the contract, the configuration and the incoming
generator state. -/

/-- `DEFAULT_RANDOM_SEED` from `utils/constants.py`. -/
def DEFAULT_RANDOM_SEED : ℤ := 42

/-- `DEFAULT_NUM_SIMULATIONS` from `utils/constants.py`. -/
def DEFAULT_NUM_SIMULATIONS : ℕ := 10000

/-- Constructor configuration of `MonteCarloModel.__init__`:
`num_simulations`, `use_antithetic` and `random_seed` (`None` allowed). -/
structure MCConfig where
  num_simulations : ℕ
  use_antithetic : Bool
  random_seed : Option ℤ

/-- The constructor defaults of `MonteCarloModel.__init__`
(`num_simulations = DEFAULT_NUM_SIMULATIONS`, `use_antithetic = True`,
`random_seed = DEFAULT_RANDOM_SEED`). -/
def defaultMCConfig : MCConfig :=
  ⟨DEFAULT_NUM_SIMULATIONS, true, some DEFAULT_RANDOM_SEED⟩

/-- Abstract model of the NumPy pseudo-random generator with state type `g`:
`seedFun` is `np.random.seed`, `draw st n` is `np.random.standard_normal(n)`
returning the drawn list (of length `n`) and the successor state. -/
structure RNG (g : Type) where
  seedFun : ℤ → g
  draw : g → ℕ → List ℝ × g

/-- Antithetic pairing from `MonteCarloModel._generate_price_paths`:
`np.concatenate([Z, -Z])`. -/
def antiDraws (Z : List ℝ) : List ℝ := Z ++ Z.map (fun z => -z)

/-- The standard-normal draw list used by one call of
`MonteCarloModel._generate_price_paths`, including the reseeding branch
(`np.random.seed(self.random_seed)` when the seed is not `None`) and the
antithetic halving (`n_paths = num_simulations // 2`, floor division). -/
def mcDraw {g : Type} (R : RNG g) (cfg : MCConfig) (st : g) : List ℝ × g :=
  let st0 := match cfg.random_seed with
    | some s => R.seedFun s
    | none => st
  if cfg.use_antithetic then
    let res := R.draw st0 (cfg.num_simulations / 2)
    (antiDraws res.1, res.2)
  else
    R.draw st0 cfg.num_simulations

/-- Terminal stock prices of `MonteCarloModel._generate_price_paths` for a
given draw list: `S·exp((r - q - σ²/2)·T + σ·√T·Z)`. -/
noncomputable def mcTerminal (o : OptionContract) (zs : List ℝ) : List ℝ :=
  zs.map fun z =>
    o.spot_price * Real.exp ((o.risk_free_rate - o.dividend_yield -
      0.5 * o.volatility ^ 2) * o.time_to_expiry +
      o.volatility * Real.sqrt o.time_to_expiry * z)

/-- `MonteCarloModel._calculate_payoffs` composed with the path generation. -/
noncomputable def mcPayoffs (o : OptionContract) (zs : List ℝ) : List ℝ :=
  (mcTerminal o zs).map (payoff o.option_type o.strike_price)

/-- `np.mean`. -/
noncomputable def listMean (xs : List ℝ) : ℝ := xs.sum / xs.length

/-- `np.std(xs, ddof=1)`: square root of `Σ(x - mean)² / (len - 1)`. -/
noncomputable def sampleStd (xs : List ℝ) : ℝ :=
  Real.sqrt ((xs.map fun x => (x - listMean xs) ^ 2).sum / ((xs.length : ℝ) - 1))

/-- The price computed by `MonteCarloModel.price` from a given draw list:
discounted mean payoff. -/
noncomputable def mcPrice (o : OptionContract) (zs : List ℝ) : ℝ :=
  Real.exp (-o.risk_free_rate * o.time_to_expiry) * listMean (mcPayoffs o zs)

/-- The standard error stored by `MonteCarloModel.price`:
`discount · std(payoffs, ddof=1) / √num_simulations` (note the divisor uses the
requested `num_simulations`, not the number of generated paths). -/
noncomputable def mcStandardError (o : OptionContract) (m : ℕ) (zs : List ℝ) : ℝ :=
  Real.exp (-o.risk_free_rate * o.time_to_expiry) * sampleStd (mcPayoffs o zs) /
    Real.sqrt m

/-- `MonteCarloModel.get_confidence_interval`: `price ± z·SE` with
`z = norm.ppf((1 + confidence_level)/2)`. -/
noncomputable def mcConfidenceInterval (o : OptionContract) (m : ℕ) (zs : List ℝ)
    (cl : ℝ) : ℝ × ℝ :=
  (mcPrice o zs - normPPF ((1 + cl) / 2) * mcStandardError o m zs,
   mcPrice o zs + normPPF ((1 + cl) / 2) * mcStandardError o m zs)

/-- One full `MonteCarloModel.price()` invocation as a state transformer on the
generator state: the returned price together with the generator state left
behind for a subsequent call. -/
noncomputable def mcPriceRun {g : Type} (R : RNG g) (o : OptionContract)
    (cfg : MCConfig) (st : g) : ℝ × g :=
  let res := mcDraw R cfg st
  (mcPrice o res.1, res.2)

/-! ### Numerical Greeks calculator (`greeks/calculator.py`)

The calculator re-instantiates the wrapped engine on perturbed contracts and
calls its `price()`; the engine's pricing map is abstracted as a function
`V : OptionContract → ℝ`.  Perturbed contracts go through `mkOption` because
the source rebuilds them with the pydantic constructor
(`Option(**{**model_dump(), field: value})`), which re-validates. -/

/-- Rebuild of the contract with one field replaced, as done by the calculator;
`mkOption` re-runs the pydantic validation. -/
noncomputable def remake (o : OptionContract) (spot t vol rate : ℝ) :
    Except String OptionContract :=
  mkOption spot o.strike_price t vol rate o.option_type o.exercise_style o.dividend_yield

/-- `NumericalGreeksCalculator.delta` with step `h_pct` (default `0.01`). -/
noncomputable def numDelta (V : OptionContract → ℝ) (o : OptionContract)
    (hPct : ℝ) : Except String ℝ := do
  let h := o.spot_price * hPct
  let up ← remake o (o.spot_price + h) o.time_to_expiry o.volatility o.risk_free_rate
  let down ← remake o (o.spot_price - h) o.time_to_expiry o.volatility o.risk_free_rate
  return (V up - V down) / (2 * h)

/-- `NumericalGreeksCalculator.gamma` with step `h_pct` (default `0.01`). -/
noncomputable def numGamma (V : OptionContract → ℝ) (o : OptionContract)
    (hPct : ℝ) : Except String ℝ := do
  let h := o.spot_price * hPct
  let up ← remake o (o.spot_price + h) o.time_to_expiry o.volatility o.risk_free_rate
  let down ← remake o (o.spot_price - h) o.time_to_expiry o.volatility o.risk_free_rate
  return (V up - 2 * V o + V down) / h ^ 2

/-- `NumericalGreeksCalculator.theta` with day step `h` (default `1/365`):
if the remaining time is `≤ h` it returns `-V(T)/h` without constructing a
bumped contract; otherwise it computes `theta = (V(T-h) - V(T))/h` and returns
`theta * h * CALENDAR_DAYS_PER_YEAR` (the source's "per-day" conversion). -/
noncomputable def numTheta (V : OptionContract → ℝ) (o : OptionContract)
    (h : ℝ) : Except String ℝ :=
  if o.time_to_expiry ≤ h then .ok (-(V o) / h)
  else
    (remake o o.spot_price (o.time_to_expiry - h) o.volatility o.risk_free_rate).map
      fun later => (V later - V o) / h * h * 365

/-- `NumericalGreeksCalculator.vega` with volatility step `h` (default `0.01`). -/
noncomputable def numVega (V : OptionContract → ℝ) (o : OptionContract)
    (h : ℝ) : Except String ℝ := do
  let up ← remake o o.spot_price o.time_to_expiry (o.volatility + h) o.risk_free_rate
  let down ← remake o o.spot_price o.time_to_expiry (o.volatility - h) o.risk_free_rate
  return (V up - V down) / 2

/-- `NumericalGreeksCalculator.rho` with rate step `h` (default `0.01`). -/
noncomputable def numRho (V : OptionContract → ℝ) (o : OptionContract)
    (h : ℝ) : Except String ℝ := do
  let up ← remake o o.spot_price o.time_to_expiry o.volatility (o.risk_free_rate + h)
  let down ← remake o o.spot_price o.time_to_expiry o.volatility (o.risk_free_rate - h)
  return (V up - V down) / 2

/-- `NumericalGreeksCalculator.calculate_all_greeks` (used by `greeks()` of the
Binomial and Monte Carlo engines), with every step at its default value; the
five Greeks are evaluated in the source's order, the first raised validation
error propagating out. -/
noncomputable def numAllGreeks (V : OptionContract → ℝ) (o : OptionContract) :
    Except String (ℝ × ℝ × ℝ × ℝ × ℝ) := do
  let dl ← numDelta V o 0.01
  let gm ← numGamma V o 0.01
  let th ← numTheta V o (1 / 365)
  let vg ← numVega V o 0.01
  let rh ← numRho V o 0.01
  return (dl, gm, th, vg, rh)

/-! ### Implied volatility solver (`volatility/implied.py`) -/

/-- `_calculate_intrinsic_value`: present value of the forward intrinsic,
floored at zero. -/
noncomputable def intrinsicValue (spot strike t rate : ℝ) (oty : OptionType)
    (q : ℝ) : ℝ :=
  match oty with
  | .call => max (spot * Real.exp (-q * t) - strike * Real.exp (-rate * t)) 0
  | .put => max (strike * Real.exp (-rate * t) - spot * Real.exp (-q * t)) 0

/-- Outcome of the input-validation and routing prefix of `implied_volatility`:
either an immediate `ImpliedVolatilityError` (no pricing iteration attempted),
or dispatch to the bisection or Newton-Raphson iterations. -/
inductive IVRoute
  | invalidPrice (msg : String)
  | bisect
  | newton
deriving DecidableEq

/-- The validation and routing prefix of `implied_volatility` (lines 53-79 of
`volatility/implied.py`): raise if `market_price < intrinsic_value`, raise if
`market_price <= 0`, go to bisection if `market_price - intrinsic_value < 0.01`,
otherwise try Newton-Raphson. -/
noncomputable def impliedVolRoute (spot strike t rate market : ℝ)
    (oty : OptionType) (q : ℝ) : IVRoute :=
  if market < intrinsicValue spot strike t rate oty q then
    .invalidPrice "Market price is below intrinsic value"
  else if market ≤ 0 then .invalidPrice "Market price must be positive"
  else if market - intrinsicValue spot strike t rate oty q < 0.01 then .bisect
  else .newton

/-- The field invariants pydantic guarantees for every constructed contract. -/
def ValidOption (o : OptionContract) : Prop :=
  0 < o.spot_price ∧ 0 < o.strike_price ∧ 0 < o.time_to_expiry ∧
    0 < o.volatility ∧ 0 ≤ o.dividend_yield

/-! ## Theorems -/

lemma except_bind_ok {α β : Type} (a : α) (f : α → Except String β) :
    (Except.ok a >>= f) = f a := rfl

lemma except_bind_error {α β : Type} (e : String) (f : α → Except String β) :
    ((Except.error e : Except String α) >>= f) = .error e := rfl

lemma except_map_ok {α β : Type} (a : α) (f : α → β) :
    (Except.ok a : Except String α).map f = .ok (f a) := rfl

lemma mkOption_ok {spot strike t vol rate q : ℝ} (oty : OptionType)
    (ex : ExerciseStyle) (h1 : 0 < spot) (h2 : 0 < strike) (h3 : 0 < t)
    (h4 : 0 < vol) (h5 : 0 ≤ q) :
    mkOption spot strike t vol rate oty ex q =
      .ok ⟨spot, strike, t, vol, rate, oty, ex, q⟩ := by
  unfold mkOption
  rw [if_neg (not_le.mpr h1), if_neg (not_le.mpr h2), if_neg (not_le.mpr h3),
    if_neg (not_le.mpr h4), if_neg (not_lt.mpr h5)]

lemma mkOption_error_vol {spot strike t vol rate q : ℝ} (oty : OptionType)
    (ex : ExerciseStyle) (h1 : 0 < spot) (h2 : 0 < strike) (h3 : 0 < t)
    (h4 : vol ≤ 0) :
    mkOption spot strike t vol rate oty ex q =
      .error "volatility must be greater than 0" := by
  unfold mkOption
  rw [if_neg (not_le.mpr h1), if_neg (not_le.mpr h2), if_neg (not_le.mpr h3),
    if_pos h4]

lemma parity_core (pvS pvK a b : ℝ) :
    pvS * normalCDF a - pvK * normalCDF b -
      (pvK * normalCDF (-b) - pvS * normalCDF (-a)) = pvS - pvK := by
  have e1 := normalCDF_add_neg a
  have e2 := normalCDF_add_neg b
  linear_combination pvS * e1 - pvK * e2

/-- C1: for every valid set of European contract parameters (spot, strike,
time, volatility positive, dividend yield nonnegative, any rate), the
Black-Scholes call price minus the put price equals
`spot·e^(-q·T) - strike·e^(-r·T)` within 1e-2 (it is in fact exactly equal
in real arithmetic). -/
theorem putCallParityWithDividends (spot strike t vol rate q : ℝ)
    (_hspot : 0 < spot) (_hstrike : 0 < strike) (_ht : 0 < t) (_hvol : 0 < vol)
    (_hq : 0 ≤ q) :
    |bsPrice ⟨spot, strike, t, vol, rate, .call, .european, q⟩ -
        bsPrice ⟨spot, strike, t, vol, rate, .put, .european, q⟩ -
        (spot * Real.exp (-q * t) - strike * Real.exp (-rate * t))| ≤ 1e-2 := by
  have hd1 : d1 ⟨spot, strike, t, vol, rate, .put, .european, q⟩ =
      d1 ⟨spot, strike, t, vol, rate, .call, .european, q⟩ := rfl
  have hd2 : d2 ⟨spot, strike, t, vol, rate, .put, .european, q⟩ =
      d2 ⟨spot, strike, t, vol, rate, .call, .european, q⟩ := rfl
  have key := parity_core (spot * Real.exp (-q * t)) (strike * Real.exp (-rate * t))
    (d1 ⟨spot, strike, t, vol, rate, .call, .european, q⟩)
    (d2 ⟨spot, strike, t, vol, rate, .call, .european, q⟩)
  simp only [bsPrice, hd1, hd2]
  rw [key]
  norm_num

/-- C1 witness: parity instantiated at `S = K = 100`, `T = 1`, `σ = 1`,
`r = q = 0`. -/
theorem putCallParityWithDividends_witness :
    (0:ℝ) < 100 ∧
    |bsPrice ⟨100, 100, 1, 1, 0, .call, .european, 0⟩ -
        bsPrice ⟨100, 100, 1, 1, 0, .put, .european, 0⟩ -
        (100 * Real.exp (-0 * 1) - 100 * Real.exp (-0 * 1))| ≤ 1e-2 :=
  ⟨by norm_num,
   putCallParityWithDividends 100 100 1 1 0 0 (by norm_num) (by norm_num)
     (by norm_num) (by norm_num) (by norm_num)⟩

/-- C8: for every valid European contract, call delta lies in (0,1), put delta
in (-1,0), gamma is positive and identical for call and put, vega is positive
and identical for call and put, call rho is positive and put rho negative. -/
theorem bsGreeksSignInvariants (spot strike t vol rate q : ℝ)
    (hspot : 0 < spot) (hstrike : 0 < strike) (ht : 0 < t) (hvol : 0 < vol)
    (hq : 0 ≤ q) :
    0 < bsDelta ⟨spot, strike, t, vol, rate, .call, .european, q⟩ ∧
    bsDelta ⟨spot, strike, t, vol, rate, .call, .european, q⟩ < 1 ∧
    -1 < bsDelta ⟨spot, strike, t, vol, rate, .put, .european, q⟩ ∧
    bsDelta ⟨spot, strike, t, vol, rate, .put, .european, q⟩ < 0 ∧
    0 < bsGamma ⟨spot, strike, t, vol, rate, .call, .european, q⟩ ∧
    bsGamma ⟨spot, strike, t, vol, rate, .call, .european, q⟩ =
      bsGamma ⟨spot, strike, t, vol, rate, .put, .european, q⟩ ∧
    0 < bsVega ⟨spot, strike, t, vol, rate, .call, .european, q⟩ ∧
    bsVega ⟨spot, strike, t, vol, rate, .call, .european, q⟩ =
      bsVega ⟨spot, strike, t, vol, rate, .put, .european, q⟩ ∧
    0 < bsRho ⟨spot, strike, t, vol, rate, .call, .european, q⟩ ∧
    bsRho ⟨spot, strike, t, vol, rate, .put, .european, q⟩ < 0 := by
  have hexp : (0:ℝ) < Real.exp (-q * t) := Real.exp_pos _
  have hexp1 : Real.exp (-q * t) ≤ 1 := by
    rw [Real.exp_le_one_iff]
    nlinarith
  have hsqrt : (0:ℝ) < Real.sqrt t := Real.sqrt_pos.mpr ht
  have hcdf1 := normalCDF_pos (d1 ⟨spot, strike, t, vol, rate, .call, .european, q⟩)
  have hcdf1n := normalCDF_pos (-d1 ⟨spot, strike, t, vol, rate, .call, .european, q⟩)
  have hcdf2 := normalCDF_pos (d2 ⟨spot, strike, t, vol, rate, .call, .european, q⟩)
  have hcdf2n := normalCDF_pos (-d2 ⟨spot, strike, t, vol, rate, .call, .european, q⟩)
  have hlt1 := normalCDF_lt_one (d1 ⟨spot, strike, t, vol, rate, .call, .european, q⟩)
  have hlt1n := normalCDF_lt_one (-d1 ⟨spot, strike, t, vol, rate, .call, .european, q⟩)
  have hpdf := normalPDF_pos (d1 ⟨spot, strike, t, vol, rate, .call, .european, q⟩)
  refine ⟨?_, ?_, ?_, ?_, ?_, rfl, ?_, rfl, ?_, ?_⟩
  · exact mul_pos hexp hcdf1
  · calc Real.exp (-q * t) * normalCDF (d1 ⟨spot, strike, t, vol, rate, .call, .european, q⟩)
        ≤ 1 * normalCDF (d1 ⟨spot, strike, t, vol, rate, .call, .european, q⟩) :=
          mul_le_mul_of_nonneg_right hexp1 hcdf1.le
      _ < 1 := by rw [one_mul]; exact hlt1
  · show -1 < -Real.exp (-q * t) *
      normalCDF (-d1 ⟨spot, strike, t, vol, rate, .put, .european, q⟩)
    have h2 : Real.exp (-q * t) *
        normalCDF (-d1 ⟨spot, strike, t, vol, rate, .call, .european, q⟩) ≤
        1 * normalCDF (-d1 ⟨spot, strike, t, vol, rate, .call, .european, q⟩) :=
      mul_le_mul_of_nonneg_right hexp1 hcdf1n.le
    have h3 : d1 ⟨spot, strike, t, vol, rate, .put, .european, q⟩ =
        d1 ⟨spot, strike, t, vol, rate, .call, .european, q⟩ := rfl
    rw [h3]
    nlinarith
  · show -Real.exp (-q * t) *
      normalCDF (-d1 ⟨spot, strike, t, vol, rate, .put, .european, q⟩) < 0
    have h3 : d1 ⟨spot, strike, t, vol, rate, .put, .european, q⟩ =
        d1 ⟨spot, strike, t, vol, rate, .call, .european, q⟩ := rfl
    rw [h3]
    nlinarith
  · exact div_pos (mul_pos hexp hpdf) (mul_pos (mul_pos hspot hvol) hsqrt)
  · exact div_pos (mul_pos (mul_pos (mul_pos hspot hexp) hsqrt) hpdf) (by norm_num)
  · show 0 < strike * Real.exp (-rate * t) * t *
      normalCDF (d2 ⟨spot, strike, t, vol, rate, .call, .european, q⟩) / 100
    exact div_pos (mul_pos (mul_pos (mul_pos hstrike (Real.exp_pos _)) ht) hcdf2)
      (by norm_num)
  · show -(strike * Real.exp (-rate * t) * t *
      normalCDF (-d2 ⟨spot, strike, t, vol, rate, .put, .european, q⟩)) / 100 < 0
    have h3 : d2 ⟨spot, strike, t, vol, rate, .put, .european, q⟩ =
        d2 ⟨spot, strike, t, vol, rate, .call, .european, q⟩ := rfl
    rw [h3]
    have := mul_pos (mul_pos (mul_pos hstrike (Real.exp_pos (-rate * t))) ht) hcdf2n
    nlinarith

/-- C8 witness: the sign invariants instantiated at `S = K = 100`, `T = 1`,
`σ = 1`, `r = q = 0`. -/
theorem bsGreeksSignInvariants_witness :
    (0:ℝ) < 100 ∧
    0 < bsDelta ⟨100, 100, 1, 1, 0, .call, .european, 0⟩ ∧
    bsRho ⟨100, 100, 1, 1, 0, .put, .european, 0⟩ < 0 := by
  have h := bsGreeksSignInvariants 100 100 1 1 0 0 (by norm_num) (by norm_num)
    (by norm_num) (by norm_num) (by norm_num)
  exact ⟨by norm_num, h.1, h.2.2.2.2.2.2.2.2.2⟩

/-- C9: an `Option` contract with any non-positive spot, strike, time or
volatility, or a negative dividend yield, fails pydantic validation at
construction (in particular `time_to_expiry = 0`); any successfully
constructed contract satisfies all the field invariants; and constructing a
`BlackScholesModel` on an American-style option fails with an invalid-option
error before any pricing is performed. -/
theorem optionValidationEager (spot strike t vol rate : ℝ) (oty : OptionType)
    (ex : ExerciseStyle) (q : ℝ) :
    ((spot ≤ 0 ∨ strike ≤ 0 ∨ t ≤ 0 ∨ vol ≤ 0 ∨ q < 0) →
      ∃ e, mkOption spot strike t vol rate oty ex q = .error e) ∧
    (∀ o, mkOption spot strike t vol rate oty ex q = .ok o →
      0 < o.spot_price ∧ 0 < o.strike_price ∧ 0 < o.time_to_expiry ∧
        0 < o.volatility ∧ 0 ≤ o.dividend_yield) ∧
    (∀ o : OptionContract, o.exercise_style = .american →
      ∃ e, mkBlackScholes o = .error e) := by
  refine ⟨?_, ?_, ?_⟩
  · intro hbad
    unfold mkOption
    split_ifs with h1 h2 h3 h4 h5
    · exact ⟨_, rfl⟩
    · exact ⟨_, rfl⟩
    · exact ⟨_, rfl⟩
    · exact ⟨_, rfl⟩
    · exact ⟨_, rfl⟩
    · push_neg at h1 h2 h3 h4 h5
      rcases hbad with h | h | h | h | h <;> linarith
  · intro o hok
    unfold mkOption at hok
    split_ifs at hok with h1 h2 h3 h4 h5
    push_neg at h1 h2 h3 h4 h5
    injection hok with hok2
    rw [← hok2]
    exact ⟨h1, h2, h3, h4, h5⟩
  · intro o ham
    unfold mkBlackScholes
    rw [if_pos (show o.exercise_style ≠ ExerciseStyle.european by
      rw [ham]; exact fun hcon => ExerciseStyle.noConfusion hcon)]
    exact ⟨_, rfl⟩

/-- C9 witness: `time_to_expiry = 0` is rejected, and the Black-Scholes
constructor rejects an American-style contract. -/
theorem optionValidationEager_witness :
    (∃ e, mkOption 100 100 0 0.2 0.05 .call .european 0 = .error e) ∧
    (∃ e, mkBlackScholes ⟨100, 100, 1, 0.2, 0.05, .call, .american, 0⟩ = .error e) :=
  ⟨(optionValidationEager 100 100 0 0.2 0.05 .call .european 0).1
      (Or.inr (Or.inr (Or.inl (by norm_num)))),
   (optionValidationEager 100 100 1 0.2 0.05 .call .american 0).2.2 _ rfl⟩

lemma intrinsicValue_two_one : intrinsicValue 2 1 1 0 .call 0 = 1 := by
  simp only [intrinsicValue, neg_zero, zero_mul, Real.exp_zero, mul_one]
  norm_num

/-- C3 counterexample: with `spot = 2`, `strike = 1`, `T = 1`, `r = q = 0` and
`market_price = 1`, the market price equals the intrinsic present value (so it
does not strictly exceed it), yet `implied_volatility` raises no validation
error and proceeds to the bisection iteration, because the source only rejects
prices that are strictly below intrinsic. -/
theorem impliedVolEqualIntrinsicAccepted :
    ¬ ((1:ℝ) > intrinsicValue 2 1 1 0 .call 0) ∧
    impliedVolRoute 2 1 1 0 1 .call 0 = .bisect := by
  constructor
  · rw [intrinsicValue_two_one]
    exact lt_irrefl 1
  · unfold impliedVolRoute
    rw [intrinsicValue_two_one]
    norm_num

/-- C3 amended: `implied_volatility` fails immediately with an
`ImpliedVolatilityError` (before any pricing iteration) exactly when the
market price is strictly below the contract's intrinsic present value or is
not strictly positive; whenever the market price is at least the intrinsic
value and strictly positive, no validation error is raised and the call
proceeds to an iterative solver (bisection or Newton-Raphson). -/
theorem impliedVolValidation (spot strike t rate market : ℝ) (oty : OptionType)
    (q : ℝ) :
    ((market < intrinsicValue spot strike t rate oty q ∨ market ≤ 0) →
      ∃ msg, impliedVolRoute spot strike t rate market oty q = .invalidPrice msg) ∧
    (intrinsicValue spot strike t rate oty q ≤ market → 0 < market →
      impliedVolRoute spot strike t rate market oty q = .bisect ∨
        impliedVolRoute spot strike t rate market oty q = .newton) := by
  unfold impliedVolRoute
  constructor
  · intro hbad
    split_ifs with h1 h2 h3
    · exact ⟨_, rfl⟩
    · exact ⟨_, rfl⟩
    · rcases hbad with h | h
      · exact absurd h h1
      · exact absurd h h2
    · rcases hbad with h | h
      · exact absurd h h1
      · exact absurd h h2
  · intro hge hpos
    split_ifs with h1 h2 h3
    · exact absurd h1 (not_lt.mpr hge)
    · exact absurd h2 (not_le.mpr hpos)
    · exact Or.inl rfl
    · exact Or.inr rfl

/-- C3 witness: a market price below intrinsic is rejected, and a market price
above intrinsic and positive is routed to a solver. -/
theorem impliedVolValidation_witness :
    (∃ msg, impliedVolRoute 2 1 1 0 (1/2) .call 0 = .invalidPrice msg) ∧
    (impliedVolRoute 2 1 1 0 2 .call 0 = .bisect ∨
      impliedVolRoute 2 1 1 0 2 .call 0 = .newton) :=
  ⟨(impliedVolValidation 2 1 1 0 (1/2) .call 0).1
      (Or.inl (by rw [intrinsicValue_two_one]; norm_num)),
   (impliedVolValidation 2 1 1 0 2 .call 0).2
      (by rw [intrinsicValue_two_one]; norm_num) (by norm_num)⟩

/-- C5 counterexample: with antithetic variates enabled and an odd requested
simulation count `M = 3`, the generator draws `3 // 2 = 1` normal value and the
engine produces only `2` terminal prices, not the requested `3`. -/
theorem antitheticOddCountMismatch :
    (mcTerminal ⟨100, 100, 1, 1/2, 0, .call, .european, 0⟩
      (mcDraw ⟨fun _ => (), fun _ n => (List.replicate n 0, ())⟩
        ⟨3, true, some 42⟩ ()).1).length ≠ 3 := by
  simp [mcTerminal, mcDraw, antiDraws]

/-- C5 amended: when antithetic variates are enabled, the engine draws
`M // 2` standard normals (floor division) and uses the paired set `{Z, -Z}`,
so the number of terminal prices generated equals `2·(M // 2)` — which is the
requested `M` exactly when `M` is even (for odd `M` one path is lost). -/
theorem antitheticPathCount {g : Type} (R : RNG g) (cfg : MCConfig) (st : g)
    (o : OptionContract)
    (hdraw : ∀ (st2 : g) (n : ℕ), (R.draw st2 n).1.length = n)
    (hanti : cfg.use_antithetic = true) :
    (mcTerminal o (mcDraw R cfg st).1).length = 2 * (cfg.num_simulations / 2) ∧
    (cfg.num_simulations % 2 = 0 →
      (mcTerminal o (mcDraw R cfg st).1).length = cfg.num_simulations) := by
  have hlen : (mcTerminal o (mcDraw R cfg st).1).length = 2 * (cfg.num_simulations / 2) := by
    simp [mcTerminal, mcDraw, hanti, antiDraws, hdraw]
    ring
  exact ⟨hlen, fun heven => by rw [hlen]; omega⟩

/-- C5 witness: with the default even `M = 10000` the antithetic path count is
the full requested sample size. -/
theorem antitheticPathCount_witness :
    (mcTerminal ⟨100, 100, 1, 1/2, 0, .call, .european, 0⟩
      (mcDraw ⟨fun _ => (), fun _ n => (List.replicate n 0, ())⟩
        defaultMCConfig ()).1).length = 10000 :=
  (antitheticPathCount ⟨fun _ => (), fun _ n => (List.replicate n 0, ())⟩
    defaultMCConfig () ⟨100, 100, 1, 1/2, 0, .call, .european, 0⟩
    (fun _ n => List.length_replicate n 0) rfl).2 rfl

/-- C6 counterexample: a pricing run in which every simulated path finishes
out of the money (deep out-of-the-money call, `S = 1`, `K = 100`, draws
`{0, -0}`): all payoffs are 0, the sample standard deviation and hence the
margin are 0, the confidence interval degenerates to a single point, and the
computed price does not lie strictly inside it. -/
theorem mcPriceDegenerateCI :
    ¬ ((mcConfidenceInterval ⟨1, 100, 1, Real.sqrt (2 * Real.log 2), 0, .call,
          .european, 0⟩ 2 (antiDraws [0]) 0.95).1 <
        mcPrice ⟨1, 100, 1, Real.sqrt (2 * Real.log 2), 0, .call, .european, 0⟩
          (antiDraws [0]) ∧
      mcPrice ⟨1, 100, 1, Real.sqrt (2 * Real.log 2), 0, .call, .european, 0⟩
          (antiDraws [0]) <
        (mcConfidenceInterval ⟨1, 100, 1, Real.sqrt (2 * Real.log 2), 0, .call,
          .european, 0⟩ 2 (antiDraws [0]) 0.95).2) := by
  have hL : 0 ≤ 2 * Real.log 2 :=
    mul_nonneg (by norm_num) (Real.log_nonneg (by norm_num))
  have hσ : Real.sqrt (2 * Real.log 2) ^ 2 = 2 * Real.log 2 := Real.sq_sqrt hL
  have hexp : ((0:ℝ) - 0 - 0.5 * Real.sqrt (2 * Real.log 2) ^ 2) * 1 +
      Real.sqrt (2 * Real.log 2) * Real.sqrt 1 * 0 = -Real.log 2 := by
    rw [hσ]; ring
  have hterm : Real.exp (((0:ℝ) - 0 - 0.5 * Real.sqrt (2 * Real.log 2) ^ 2) * 1 +
      Real.sqrt (2 * Real.log 2) * Real.sqrt 1 * 0) = 1/2 := by
    rw [hexp, Real.exp_neg, Real.exp_log (by norm_num)]
    norm_num
  have hpay : mcPayoffs ⟨1, 100, 1, Real.sqrt (2 * Real.log 2), 0, .call,
      .european, 0⟩ (antiDraws [0]) = [0, 0] := by
    unfold mcPayoffs mcTerminal antiDraws payoff
    simp only [List.map_cons, List.map_nil, List.cons_append, List.nil_append,
      neg_zero]
    rw [hterm]
    norm_num
  have hstd0 : sampleStd (mcPayoffs ⟨1, 100, 1, Real.sqrt (2 * Real.log 2), 0,
      .call, .european, 0⟩ (antiDraws [0])) = 0 := by
    rw [hpay]
    unfold sampleStd listMean
    norm_num
  have hse0 : mcStandardError ⟨1, 100, 1, Real.sqrt (2 * Real.log 2), 0, .call,
      .european, 0⟩ 2 (antiDraws [0]) = 0 := by
    unfold mcStandardError
    rw [hstd0]
    simp
  intro hcon
  obtain ⟨h1, _⟩ := hcon
  unfold mcConfidenceInterval at h1
  rw [hse0, mul_zero, sub_zero] at h1
  exact lt_irrefl _ h1

/-- C6 amended: the computed Monte Carlo price lies strictly inside its
reported confidence interval `price ± z·SE` whenever the sample standard
deviation of the payoffs is positive (the margin is then positive, since the
97.5th-percentile quantile is positive); when all payoffs are equal the margin
is zero and the interval degenerates to the single point `price`, which is not
strictly inside. -/
theorem mcPriceInsideCI (o : OptionContract) (m : ℕ) (zs : List ℝ) (cl : ℝ)
    (hcl0 : 0 < cl) (hcl1 : cl < 1) (hm : 0 < m)
    (hstd : 0 < sampleStd (mcPayoffs o zs)) :
    (mcConfidenceInterval o m zs cl).1 < mcPrice o zs ∧
      mcPrice o zs < (mcConfidenceInterval o m zs cl).2 := by
  have hz : 0 < normPPF ((1 + cl) / 2) := normPPF_pos (by linarith) (by linarith)
  have hse : 0 < mcStandardError o m zs := by
    unfold mcStandardError
    exact div_pos (mul_pos (Real.exp_pos _) hstd)
      (Real.sqrt_pos.mpr (Nat.cast_pos.mpr hm))
  have hmargin : 0 < normPPF ((1 + cl) / 2) * mcStandardError o m zs :=
    mul_pos hz hse
  unfold mcConfidenceInterval
  constructor
  · show mcPrice o zs - normPPF ((1 + cl) / 2) * mcStandardError o m zs <
      mcPrice o zs
    linarith
  · show mcPrice o zs <
      mcPrice o zs + normPPF ((1 + cl) / 2) * mcStandardError o m zs
    linarith

/-- C6 witness: a run with two distinct payoffs (`[1, 0]`), whose price then
lies strictly inside the reported 95% interval. -/
theorem mcPriceInsideCI_witness :
    (mcConfidenceInterval ⟨1, 1, 1, Real.sqrt (2 * Real.log 2), 0, .call,
        .european, 0⟩ 2 [2 * Real.log 2 / Real.sqrt (2 * Real.log 2), 0] 0.95).1 <
      mcPrice ⟨1, 1, 1, Real.sqrt (2 * Real.log 2), 0, .call, .european, 0⟩
        [2 * Real.log 2 / Real.sqrt (2 * Real.log 2), 0] ∧
    mcPrice ⟨1, 1, 1, Real.sqrt (2 * Real.log 2), 0, .call, .european, 0⟩
        [2 * Real.log 2 / Real.sqrt (2 * Real.log 2), 0] <
      (mcConfidenceInterval ⟨1, 1, 1, Real.sqrt (2 * Real.log 2), 0, .call,
        .european, 0⟩ 2 [2 * Real.log 2 / Real.sqrt (2 * Real.log 2), 0] 0.95).2 := by
  have hLpos : 0 < 2 * Real.log 2 :=
    mul_pos (by norm_num) (Real.log_pos (by norm_num))
  have hσpos : 0 < Real.sqrt (2 * Real.log 2) := Real.sqrt_pos.mpr hLpos
  have hσ : Real.sqrt (2 * Real.log 2) ^ 2 = 2 * Real.log 2 := Real.sq_sqrt hLpos.le
  have hz1 : Real.sqrt (2 * Real.log 2) * Real.sqrt 1 *
      (2 * Real.log 2 / Real.sqrt (2 * Real.log 2)) = 2 * Real.log 2 := by
    rw [Real.sqrt_one, mul_one, mul_comm, div_mul_cancel₀ _ (ne_of_gt hσpos)]
  have hexp1 : ((0:ℝ) - 0 - 0.5 * Real.sqrt (2 * Real.log 2) ^ 2) * 1 +
      Real.sqrt (2 * Real.log 2) * Real.sqrt 1 *
        (2 * Real.log 2 / Real.sqrt (2 * Real.log 2)) = Real.log 2 := by
    rw [hσ, hz1]; ring
  have hexp0 : ((0:ℝ) - 0 - 0.5 * Real.sqrt (2 * Real.log 2) ^ 2) * 1 +
      Real.sqrt (2 * Real.log 2) * Real.sqrt 1 * 0 = -Real.log 2 := by
    rw [hσ]; ring
  have hpay : mcPayoffs ⟨1, 1, 1, Real.sqrt (2 * Real.log 2), 0, .call,
      .european, 0⟩ [2 * Real.log 2 / Real.sqrt (2 * Real.log 2), 0] = [1, 0] := by
    unfold mcPayoffs mcTerminal payoff
    simp only [List.map_cons, List.map_nil]
    rw [hexp1, hexp0, Real.exp_neg, Real.exp_log (by norm_num)]
    norm_num
  have hstd : 0 < sampleStd (mcPayoffs ⟨1, 1, 1, Real.sqrt (2 * Real.log 2), 0,
      .call, .european, 0⟩ [2 * Real.log 2 / Real.sqrt (2 * Real.log 2), 0]) := by
    rw [hpay]
    unfold sampleStd listMean
    apply Real.sqrt_pos.mpr
    norm_num
  exact mcPriceInsideCI ⟨1, 1, 1, Real.sqrt (2 * Real.log 2), 0, .call,
    .european, 0⟩ 2 [2 * Real.log 2 / Real.sqrt (2 * Real.log 2), 0] 0.95
    (by norm_num) (by norm_num) (by norm_num) hstd

/-- C7: with a non-`None` random seed, `_generate_price_paths` reseeds the
generator on every `price()` call, so two successive `price()` calls with the
contract and settings unchanged return the identical price whatever generator
state the first call left behind; and the constructor's seed parameter
defaults to `DEFAULT_RANDOM_SEED = 42`, so a caller who supplies no seed gets
the same determinism. -/
theorem mcSeededDeterminism {g : Type} (R : RNG g) (o : OptionContract)
    (cfg : MCConfig) (s : ℤ) (hseed : cfg.random_seed = some s) (st : g) :
    (mcPriceRun R o cfg (mcPriceRun R o cfg st).2).1 = (mcPriceRun R o cfg st).1 ∧
    defaultMCConfig.random_seed = some 42 := by
  refine ⟨?_, rfl⟩
  unfold mcPriceRun mcDraw
  rw [hseed]

lemma binomValue_zero (oty : OptionType) (ex : ExerciseStyle) (K u d p disc s : ℝ) :
    binomValue oty ex K u d p disc 0 s = payoff oty K s := rfl

lemma binomValue_succ_euro (oty : OptionType) (K u d p disc : ℝ) (k : ℕ) (s : ℝ) :
    binomValue oty .european K u d p disc (k + 1) s =
      disc * (p * binomValue oty .european K u d p disc k (s * u) +
        (1 - p) * binomValue oty .european K u d p disc k (s * d)) := rfl

lemma binomValue_succ_amer (oty : OptionType) (K u d p disc : ℝ) (k : ℕ) (s : ℝ) :
    binomValue oty .american K u d p disc (k + 1) s =
      max (disc * (p * binomValue oty .american K u d p disc k (s * u) +
        (1 - p) * binomValue oty .american K u d p disc k (s * d)))
        (payoff oty K s) := rfl

lemma payoff_nonneg (oty : OptionType) (K s : ℝ) : 0 ≤ payoff oty K s := by
  cases oty <;> exact le_max_right _ _

lemma binomValue_nonneg (oty : OptionType) (ex : ExerciseStyle) (K u d p disc : ℝ)
    (hdisc : 0 ≤ disc) (hp0 : 0 ≤ p) (hp1 : p ≤ 1) :
    ∀ (k : ℕ) (s : ℝ), 0 ≤ binomValue oty ex K u d p disc k s := by
  intro k
  induction k with
  | zero => intro s; rw [binomValue_zero]; exact payoff_nonneg oty K s
  | succ n ih =>
    intro s
    cases ex with
    | european =>
      rw [binomValue_succ_euro]
      exact mul_nonneg hdisc (add_nonneg (mul_nonneg hp0 (ih (s * u)))
        (mul_nonneg (by linarith) (ih (s * d))))
    | american =>
      rw [binomValue_succ_amer]
      exact le_trans (payoff_nonneg oty K s) (le_max_right _ _)

lemma binomValue_amer_ge_euro (oty : OptionType) (K u d p disc : ℝ)
    (hdisc : 0 ≤ disc) (hp0 : 0 ≤ p) (hp1 : p ≤ 1) :
    ∀ (k : ℕ) (s : ℝ), binomValue oty .european K u d p disc k s ≤
      binomValue oty .american K u d p disc k s := by
  intro k
  induction k with
  | zero => intro s; rw [binomValue_zero, binomValue_zero]
  | succ n ih =>
    intro s
    rw [binomValue_succ_euro, binomValue_succ_amer]
    refine le_trans ?_ (le_max_left _ _)
    have h1 : p * binomValue oty .european K u d p disc n (s * u) ≤
        p * binomValue oty .american K u d p disc n (s * u) :=
      mul_le_mul_of_nonneg_left (ih (s * u)) hp0
    have h2 : (1 - p) * binomValue oty .european K u d p disc n (s * d) ≤
        (1 - p) * binomValue oty .american K u d p disc n (s * d) :=
      mul_le_mul_of_nonneg_left (ih (s * d)) (by linarith)
    exact mul_le_mul_of_nonneg_left (by linarith) hdisc

lemma binomValue_euro_call_lb (K u d p disc : ℝ)
    (hdisc : 0 ≤ disc) (hp0 : 0 ≤ p) (hp1 : p ≤ 1)
    (hgrowth : disc * (p * u + (1 - p) * d) = 1) :
    ∀ (k : ℕ) (s : ℝ), s - K * disc ^ k ≤
      binomValue .call .european K u d p disc k s := by
  intro k
  induction k with
  | zero =>
    intro s
    rw [binomValue_zero, pow_zero, mul_one]
    exact le_max_left _ _
  | succ n ih =>
    intro s
    rw [binomValue_succ_euro]
    have h1 : disc * p * (s * u - K * disc ^ n) ≤
        disc * p * binomValue .call .european K u d p disc n (s * u) :=
      mul_le_mul_of_nonneg_left (ih (s * u)) (mul_nonneg hdisc hp0)
    have h2 : disc * (1 - p) * (s * d - K * disc ^ n) ≤
        disc * (1 - p) * binomValue .call .european K u d p disc n (s * d) :=
      mul_le_mul_of_nonneg_left (ih (s * d)) (mul_nonneg hdisc (by linarith))
    have key : disc * p * (s * u - K * disc ^ n) +
        disc * (1 - p) * (s * d - K * disc ^ n) = s - K * disc ^ (n + 1) := by
      linear_combination s * hgrowth
    have hexp : disc * (p * binomValue .call .european K u d p disc n (s * u) +
        (1 - p) * binomValue .call .european K u d p disc n (s * d)) =
        disc * p * binomValue .call .european K u d p disc n (s * u) +
          disc * (1 - p) * binomValue .call .european K u d p disc n (s * d) := by
      ring
    rw [hexp]
    linarith

lemma binomValue_amer_eq_euro_call (K u d p disc : ℝ)
    (hdisc : 0 ≤ disc) (hdisc1 : disc ≤ 1) (hp0 : 0 ≤ p) (hp1 : p ≤ 1)
    (hK : 0 ≤ K) (hgrowth : disc * (p * u + (1 - p) * d) = 1) :
    ∀ (k : ℕ) (s : ℝ), binomValue .call .american K u d p disc k s =
      binomValue .call .european K u d p disc k s := by
  intro k
  induction k with
  | zero => intro s; rfl
  | succ n ih =>
    intro s
    rw [binomValue_succ_amer, binomValue_succ_euro, ih (s * u), ih (s * d)]
    apply max_eq_left
    have hlb := binomValue_euro_call_lb K u d p disc hdisc hp0 hp1 hgrowth (n + 1) s
    rw [binomValue_succ_euro] at hlb
    have hnn := binomValue_nonneg .call .european K u d p disc hdisc hp0 hp1 (n + 1) s
    rw [binomValue_succ_euro] at hnn
    have hdpow : disc ^ (n + 1) ≤ 1 := pow_le_one₀ hdisc hdisc1
    have hKd : K * disc ^ (n + 1) ≤ K := by nlinarith
    exact max_le (by linarith) hnn

/-- C2 counterexample: a valid contract (positive spot, strike, time and
volatility, zero dividend yield; the rate is unconstrained in the source) on
which the American-exercise lattice price is strictly below the
European-exercise price on the same parameters.  With `σ = ln 2`, `r = ln 4`,
`T = 2`, `N = 2` the CRR parameters are `u = 2`, `d = 1/2`, `p = 7/3 > 1`, so
the "probability" weight `1 - p` is negative and the backward induction is not
monotone: the American put prices to 0 while the European put prices to 25/3. -/
theorem americanLatticeBelowEuropean :
    0 < Real.log 2 ∧
    binomialPrice ⟨100, 100, 2, Real.log 2, Real.log 4, .put, .american, 0⟩ 2 <
      binomialPrice ⟨100, 100, 2, Real.log 2, Real.log 4, .put, .european, 0⟩ 2 := by
  refine ⟨Real.log_pos (by norm_num), ?_⟩
  have hdt : ((2:ℝ) / ((2:ℕ):ℝ)) = 1 := by norm_num
  have hu : crrU ⟨100, 100, 2, Real.log 2, Real.log 4, .put, .american, 0⟩ 2 = 2 := by
    unfold crrU
    show Real.exp (Real.log 2 * Real.sqrt ((2:ℝ) / ((2:ℕ):ℝ))) = 2
    rw [hdt, Real.sqrt_one, mul_one, Real.exp_log (by norm_num)]
  have hd : crrD ⟨100, 100, 2, Real.log 2, Real.log 4, .put, .american, 0⟩ 2 = 1/2 := by
    unfold crrD
    rw [hu]
  have hp : crrP ⟨100, 100, 2, Real.log 2, Real.log 4, .put, .american, 0⟩ 2 = 7/3 := by
    unfold crrP
    rw [hu, hd]
    show (Real.exp ((Real.log 4 - 0) * ((2:ℝ) / ((2:ℕ):ℝ))) - 1/2) / (2 - 1/2) = 7/3
    rw [hdt, sub_zero, mul_one, Real.exp_log (by norm_num)]
    norm_num
  have hdisc : crrDisc ⟨100, 100, 2, Real.log 2, Real.log 4, .put, .american, 0⟩ 2
      = 1/4 := by
    unfold crrDisc
    show Real.exp (-Real.log 4 * ((2:ℝ) / ((2:ℕ):ℝ))) = 1/4
    rw [hdt, mul_one, Real.exp_neg, Real.exp_log (by norm_num)]
    norm_num
  have hu2 : crrU ⟨100, 100, 2, Real.log 2, Real.log 4, .put, .european, 0⟩ 2 = 2 := hu
  have hd2 : crrD ⟨100, 100, 2, Real.log 2, Real.log 4, .put, .european, 0⟩ 2 = 1/2 := hd
  have hp2 : crrP ⟨100, 100, 2, Real.log 2, Real.log 4, .put, .european, 0⟩ 2 = 7/3 := hp
  have hdisc2 : crrDisc ⟨100, 100, 2, Real.log 2, Real.log 4, .put, .european, 0⟩ 2
      = 1/4 := hdisc
  unfold binomialPrice
  rw [hu, hd, hp, hdisc, hu2, hd2, hp2, hdisc2]
  show binomValue .put .american 100 2 (1/2) (7/3) (1/4) 2 100 <
    binomValue .put .european 100 2 (1/2) (7/3) (1/4) 2 100
  have hamer : binomValue .put .american 100 2 (1/2) (7/3) (1/4) 2 100 = 0 := by
    show binomValue .put .american 100 2 (1/2) (7/3) (1/4) (0 + 1 + 1) 100 = 0
    simp only [binomValue_succ_amer, binomValue_zero, payoff]
    norm_num [max_def]
  have heuro : binomValue .put .european 100 2 (1/2) (7/3) (1/4) 2 100 = 25/3 := by
    show binomValue .put .european 100 2 (1/2) (7/3) (1/4) (0 + 1 + 1) 100 = 25/3
    simp only [binomValue_succ_euro, binomValue_zero, payoff]
    norm_num [max_def]
  rw [hamer, heuro]
  norm_num

/-- C2 amended: for every valid contract and step count, whenever the CRR
risk-neutral up-probability `p` lies in `[0, 1]` (which the source does not
enforce but which holds whenever `|(r-q)·√(T/N)| ≤ σ`), the American-exercise
lattice price is at least the European-exercise price on the same parameters;
and for a call with zero dividend yield, nonnegative rate and at least one
step, the two lattice prices coincide exactly (hence within 0.01). -/
theorem americanGeEuropeanLattice (spot strike t vol rate q : ℝ) (n : ℕ)
    (oty : OptionType) (_hspot : 0 < spot) (hstrike : 0 < strike) (ht : 0 < t)
    (hvol : 0 < vol) (hq : 0 ≤ q)
    (hp0 : 0 ≤ crrP ⟨spot, strike, t, vol, rate, oty, .american, q⟩ n)
    (hp1 : crrP ⟨spot, strike, t, vol, rate, oty, .american, q⟩ n ≤ 1) :
    binomialPrice ⟨spot, strike, t, vol, rate, oty, .european, q⟩ n ≤
      binomialPrice ⟨spot, strike, t, vol, rate, oty, .american, q⟩ n ∧
    (q = 0 → oty = .call → 0 ≤ rate → 0 < n →
      |binomialPrice ⟨spot, strike, t, vol, rate, oty, .american, q⟩ n -
        binomialPrice ⟨spot, strike, t, vol, rate, oty, .european, q⟩ n| ≤ 0.01) := by
  constructor
  · exact binomValue_amer_ge_euro oty strike
      (crrU ⟨spot, strike, t, vol, rate, oty, .american, q⟩ n)
      (crrD ⟨spot, strike, t, vol, rate, oty, .american, q⟩ n)
      (crrP ⟨spot, strike, t, vol, rate, oty, .american, q⟩ n)
      (crrDisc ⟨spot, strike, t, vol, rate, oty, .american, q⟩ n)
      (Real.exp_pos _).le hp0 hp1 n spot
  · intro hq0 hoty hrate hn
    subst hq0
    subst hoty
    have hnpos : (0:ℝ) < (n:ℝ) := Nat.cast_pos.mpr hn
    have hdtpos : 0 < t / (n:ℝ) := div_pos ht hnpos
    have hxpos : 0 < vol * Real.sqrt (t / (n:ℝ)) :=
      mul_pos hvol (Real.sqrt_pos.mpr hdtpos)
    have hU1 : 1 < crrU ⟨spot, strike, t, vol, rate, .call, .american, 0⟩ n := by
      unfold crrU
      exact Real.one_lt_exp_iff.mpr hxpos
    have hUpos : 0 < crrU ⟨spot, strike, t, vol, rate, .call, .american, 0⟩ n :=
      lt_trans one_pos hU1
    have hDlt1 : crrD ⟨spot, strike, t, vol, rate, .call, .american, 0⟩ n < 1 := by
      unfold crrD
      exact (div_lt_one hUpos).mpr hU1
    have hUD : crrD ⟨spot, strike, t, vol, rate, .call, .american, 0⟩ n <
        crrU ⟨spot, strike, t, vol, rate, .call, .american, 0⟩ n :=
      lt_trans hDlt1 hU1
    have hne : crrU ⟨spot, strike, t, vol, rate, .call, .american, 0⟩ n -
        crrD ⟨spot, strike, t, vol, rate, .call, .american, 0⟩ n ≠ 0 :=
      sub_ne_zero.mpr (ne_of_gt hUD)
    have hpu : crrP ⟨spot, strike, t, vol, rate, .call, .american, 0⟩ n *
        (crrU ⟨spot, strike, t, vol, rate, .call, .american, 0⟩ n -
          crrD ⟨spot, strike, t, vol, rate, .call, .american, 0⟩ n) =
        Real.exp ((rate - 0) * (t / (n:ℝ))) -
          crrD ⟨spot, strike, t, vol, rate, .call, .american, 0⟩ n := by
      unfold crrP
      exact div_mul_cancel₀ _ hne
    have hgrowth : crrDisc ⟨spot, strike, t, vol, rate, .call, .american, 0⟩ n *
        (crrP ⟨spot, strike, t, vol, rate, .call, .american, 0⟩ n *
          crrU ⟨spot, strike, t, vol, rate, .call, .american, 0⟩ n +
          (1 - crrP ⟨spot, strike, t, vol, rate, .call, .american, 0⟩ n) *
            crrD ⟨spot, strike, t, vol, rate, .call, .american, 0⟩ n) = 1 := by
      have hcomb : crrP ⟨spot, strike, t, vol, rate, .call, .american, 0⟩ n *
          crrU ⟨spot, strike, t, vol, rate, .call, .american, 0⟩ n +
          (1 - crrP ⟨spot, strike, t, vol, rate, .call, .american, 0⟩ n) *
            crrD ⟨spot, strike, t, vol, rate, .call, .american, 0⟩ n =
          Real.exp ((rate - 0) * (t / (n:ℝ))) := by
        linear_combination hpu
      rw [hcomb]
      show Real.exp (-rate * (t / (n:ℝ))) * Real.exp ((rate - 0) * (t / (n:ℝ))) = 1
      rw [← Real.exp_add]
      have harg : -rate * (t / (n:ℝ)) + (rate - 0) * (t / (n:ℝ)) = 0 := by ring
      rw [harg, Real.exp_zero]
    have hdisc1 : crrDisc ⟨spot, strike, t, vol, rate, .call, .american, 0⟩ n ≤ 1 := by
      unfold crrDisc
      rw [Real.exp_le_one_iff]
      have h0 : 0 ≤ rate * (t / (n:ℝ)) := mul_nonneg hrate hdtpos.le
      linarith
    have heq := binomValue_amer_eq_euro_call strike
      (crrU ⟨spot, strike, t, vol, rate, .call, .american, 0⟩ n)
      (crrD ⟨spot, strike, t, vol, rate, .call, .american, 0⟩ n)
      (crrP ⟨spot, strike, t, vol, rate, .call, .american, 0⟩ n)
      (crrDisc ⟨spot, strike, t, vol, rate, .call, .american, 0⟩ n)
      (Real.exp_pos _).le hdisc1 hp0 hp1 hstrike.le hgrowth n spot
    have hAm : binomialPrice ⟨spot, strike, t, vol, rate, .call, .american, 0⟩ n =
        binomValue .call .american strike
          (crrU ⟨spot, strike, t, vol, rate, .call, .american, 0⟩ n)
          (crrD ⟨spot, strike, t, vol, rate, .call, .american, 0⟩ n)
          (crrP ⟨spot, strike, t, vol, rate, .call, .american, 0⟩ n)
          (crrDisc ⟨spot, strike, t, vol, rate, .call, .american, 0⟩ n) n spot := rfl
    have hEu : binomialPrice ⟨spot, strike, t, vol, rate, .call, .european, 0⟩ n =
        binomValue .call .european strike
          (crrU ⟨spot, strike, t, vol, rate, .call, .american, 0⟩ n)
          (crrD ⟨spot, strike, t, vol, rate, .call, .american, 0⟩ n)
          (crrP ⟨spot, strike, t, vol, rate, .call, .american, 0⟩ n)
          (crrDisc ⟨spot, strike, t, vol, rate, .call, .american, 0⟩ n) n spot := rfl
    rw [hAm, hEu, heq]
    norm_num

/-- C2 witness: the amended inequality and the zero-dividend call equality at a
concrete contract (`S = K = 100`, `T = 1`, `σ = ln 2`, `r = q = 0`, `N = 1`,
where `u = 2`, `d = 1/2`, `p = 1/3 ∈ [0, 1]`). -/
theorem americanGeEuropeanLattice_witness :
    binomialPrice ⟨100, 100, 1, Real.log 2, 0, .call, .european, 0⟩ 1 ≤
      binomialPrice ⟨100, 100, 1, Real.log 2, 0, .call, .american, 0⟩ 1 ∧
    |binomialPrice ⟨100, 100, 1, Real.log 2, 0, .call, .american, 0⟩ 1 -
      binomialPrice ⟨100, 100, 1, Real.log 2, 0, .call, .european, 0⟩ 1| ≤ 0.01 := by
  have hu : crrU ⟨100, 100, 1, Real.log 2, 0, .call, .american, 0⟩ 1 = 2 := by
    unfold crrU
    show Real.exp (Real.log 2 * Real.sqrt ((1:ℝ) / ((1:ℕ):ℝ))) = 2
    norm_num
    exact Real.exp_log (by norm_num)
  have hd : crrD ⟨100, 100, 1, Real.log 2, 0, .call, .american, 0⟩ 1 = 1/2 := by
    unfold crrD
    rw [hu]
  have hp : crrP ⟨100, 100, 1, Real.log 2, 0, .call, .american, 0⟩ 1 = 1/3 := by
    unfold crrP
    rw [hu, hd]
    show (Real.exp ((0 - 0) * ((1:ℝ) / ((1:ℕ):ℝ))) - 1/2) / (2 - 1/2) = 1/3
    norm_num
  have h := americanGeEuropeanLattice 100 100 1 (Real.log 2) 0 0 1 .call
    (by norm_num) (by norm_num) (by norm_num) (Real.log_pos (by norm_num))
    (by norm_num) (by rw [hp]; norm_num) (by rw [hp]; norm_num)
  exact ⟨h.1, h.2 rfl rfl (le_refl 0) one_pos⟩

/-- C10: for every pricing map and every valid contract whose volatility is at
most the default vega bump 0.01, `NumericalGreeksCalculator.vega` raises a
validation error (the down-bumped contract violates `volatility > 0`), and so
does `calculate_all_greeks` — hence `greeks()` of the Binomial and Monte Carlo
engines. -/
theorem numericalVegaLowVolRaises (V : OptionContract → ℝ) (o : OptionContract)
    (hval : ValidOption o) (hlow : o.volatility ≤ 0.01) :
    (∃ e, numVega V o 0.01 = .error e) ∧ (∃ e, numAllGreeks V o = .error e) := by
  obtain ⟨hs, hk, ht, hv, hq⟩ := hval
  have hup : remake o o.spot_price o.time_to_expiry (o.volatility + 0.01)
      o.risk_free_rate = .ok ⟨o.spot_price, o.strike_price, o.time_to_expiry,
        o.volatility + 0.01, o.risk_free_rate, o.option_type, o.exercise_style,
        o.dividend_yield⟩ :=
    mkOption_ok _ _ hs hk ht (by linarith) hq
  have hdown : remake o o.spot_price o.time_to_expiry (o.volatility - 0.01)
      o.risk_free_rate = .error "volatility must be greater than 0" :=
    mkOption_error_vol _ _ hs hk ht (by linarith)
  have hvega : numVega V o 0.01 = .error "volatility must be greater than 0" := by
    simp only [numVega, hup, hdown, except_bind_ok, except_bind_error]
  refine ⟨⟨_, hvega⟩, ?_⟩
  cases hd : numDelta V o 0.01 with
  | error e => exact ⟨e, by simp only [numAllGreeks, hd, except_bind_error]⟩
  | ok dv =>
    cases hg : numGamma V o 0.01 with
    | error e =>
      exact ⟨e, by simp only [numAllGreeks, hd, hg, except_bind_ok, except_bind_error]⟩
    | ok gv =>
      cases hth : numTheta V o (1 / 365) with
      | error e =>
        exact ⟨e, by
          simp only [numAllGreeks, hd, hg, hth, except_bind_ok, except_bind_error]⟩
      | ok tv =>
        exact ⟨"volatility must be greater than 0", by
          simp only [numAllGreeks, hd, hg, hth, hvega, except_bind_ok,
            except_bind_error]⟩

/-- C10 witness: a contract with volatility 0.005 makes both the vega
computation and the full Greeks computation fail with a validation error. -/
theorem numericalVegaLowVolRaises_witness :
    (∃ e, numVega (fun _ => 0) ⟨100, 100, 1, 0.005, 0.05, .call, .european, 0⟩
      0.01 = .error e) ∧
    (∃ e, numAllGreeks (fun _ => 0) ⟨100, 100, 1, 0.005, 0.05, .call, .european, 0⟩
      = .error e) :=
  numericalVegaLowVolRaises (fun _ => 0) ⟨100, 100, 1, 0.005, 0.05, .call, .european, 0⟩
    ⟨by norm_num, by norm_num, by norm_num, by norm_num, by norm_num⟩ (by norm_num)

/-- C4: evaluation of `NumericalGreeksCalculator.theta` at the default day
step `h = 1/365` on a model whose price is the remaining time to expiry
(so the price decays by exactly 1/365 per day): the source returns
`theta * h * 365 = (V(T-h) - V(T)) * 365 = -1`, the per-year decay rate,
whereas the claimed per-calendar-day figure `((V(T-h) - V(T))/h)/365` is
`-1/365`; the two differ by a factor of 365. -/
theorem numThetaScalingAtDefault :
    numTheta (fun oc => oc.time_to_expiry)
      ⟨100, 100, 1, 1/5, 1/20, .call, .european, 0⟩ (1/365) = .ok (-1) ∧
    (((1 - 1/365 : ℝ) - 1) / (1/365)) / 365 = -(1/365) ∧
    (-1 : ℝ) ≠ -(1/365) := by
  refine ⟨?_, by norm_num, by norm_num⟩
  have hcond : ¬((⟨100, 100, 1, 1/5, 1/20, .call, .european, 0⟩ :
      OptionContract).time_to_expiry ≤ 1/365) := by norm_num
  have hre : remake (⟨100, 100, 1, 1/5, 1/20, .call, .european, 0⟩ : OptionContract)
      100 (1 - 1/365) (1/5) (1/20) =
      .ok ⟨100, 100, 1 - 1/365, 1/5, 1/20, .call, .european, 0⟩ :=
    mkOption_ok _ _ (by norm_num) (by norm_num) (by norm_num) (by norm_num)
      (by norm_num)
  unfold numTheta
  rw [if_neg hcond]
  show (remake (⟨100, 100, 1, 1/5, 1/20, .call, .european, 0⟩ : OptionContract)
      100 (1 - 1/365) (1/5) (1/20)).map _ = _
  rw [hre, except_map_ok]
  norm_num

/-- C7 witness: two-run determinism at a concrete generator, contract and the
default (seeded) configuration. -/
theorem mcSeededDeterminism_witness :
    (mcPriceRun ⟨fun _ => (), fun _ n => (List.replicate n 0, ())⟩
        ⟨100, 100, 1, 1/2, 0, .call, .european, 0⟩ defaultMCConfig
        (mcPriceRun ⟨fun _ => (), fun _ n => (List.replicate n 0, ())⟩
          ⟨100, 100, 1, 1/2, 0, .call, .european, 0⟩ defaultMCConfig ()).2).1 =
      (mcPriceRun ⟨fun _ => (), fun _ n => (List.replicate n 0, ())⟩
        ⟨100, 100, 1, 1/2, 0, .call, .european, 0⟩ defaultMCConfig ()).1 :=
  (mcSeededDeterminism ⟨fun _ => (), fun _ n => (List.replicate n 0, ())⟩
    ⟨100, 100, 1, 1/2, 0, .call, .european, 0⟩ defaultMCConfig 42 rfl ()).1

end OptionPricing
